import Mathlib

/-!
Verification of the search-index construction and querying subsystem of the
ScotAccount-TechDocs repository.

The Index Builder is `src/_data/fullSearchIndex.js`; the Query Engine is the
client module defining `DocumentationSearch`.  Both are embedded shallowly
here: JavaScript strings become `List Char`, the regular-expression passes of
`cleanContent` become explicit scanning functions with the exact
leftmost-match / global-replace semantics of `String.prototype.replace`, and
the file system consumed by the builder becomes an explicit
`List Char → Option (List Char)` map.  JavaScript `toLowerCase` is modelled on
its ASCII fragment (the only fragment the repository's content exercises).
-/

namespace ScotDocs

/-- The backtick character (avoids a literal backtick in the source). -/
def backtick : Char := Char.ofNat 96

/-- Characters matched by the JavaScript regex class `\s`
(WhiteSpace plus LineTerminator). -/
def jsSpaceChars : List Char :=
  [' ', '\t', '\n', '\r', '\x0b', '\x0c'] ++
    ([0xa0, 0x1680, 0x2000, 0x2001, 0x2002, 0x2003, 0x2004, 0x2005, 0x2006,
      0x2007, 0x2008, 0x2009, 0x200a, 0x2028, 0x2029, 0x202f, 0x205f, 0x3000,
      0xfeff].map Char.ofNat)

/-- Membership in the JavaScript `\s` class. -/
def isJsSpace (c : Char) : Bool := jsSpaceChars.contains c

/-- Characters matched by the JavaScript regex class `\w`. -/
def isWordChar (c : Char) : Bool := c.isAlphanum || c = '_'

/-- JavaScript line terminators (the characters `.` does not match). -/
def isLineTerm (c : Char) : Bool :=
  c = '\n' || c = '\r' || c = Char.ofNat 0x2028 || c = Char.ofNat 0x2029

/-- Characters matched by `.` in a JavaScript regex without the `s` flag. -/
def isDotChar (c : Char) : Bool := !isLineTerm c

/-- ASCII fragment of JavaScript `String.prototype.toLowerCase`. -/
def jsLower (c : Char) : Char :=
  if c.isUpper then Char.ofNat (c.toNat + 32) else c

/-- `toLowerCase` on a whole string. -/
def lowerStr (s : List Char) : List Char := s.map jsLower

/-- Split a string at the first (leftmost) occurrence of `pat`, returning the
text before the occurrence and the text after it; `none` when `pat` does not
occur.  This is the primitive behind the leftmost-match rule of JavaScript
regex scanning for literal patterns. -/
def splitFirst (pat : List Char) : List Char → Option (List Char × List Char)
  | [] => if pat = [] then some ([], []) else none
  | c :: rest =>
    if pat.isPrefixOf (c :: rest) then some ([], (c :: rest).drop pat.length)
    else
      match splitFirst pat rest with
      | some (pre, post) => some (c :: pre, post)
      | none => none

theorem splitFirst_eq {pat s pre post : List Char}
    (h : splitFirst pat s = some (pre, post)) : s = pre ++ (pat ++ post) := by
  induction s generalizing pre post with
  | nil =>
    rw [splitFirst] at h
    by_cases hp : pat = ([] : List Char)
    · rw [if_pos hp] at h
      simp only [Option.some.injEq, Prod.mk.injEq] at h
      obtain ⟨h1, h2⟩ := h
      subst h1; subst h2
      simp [hp]
    · rw [if_neg hp] at h
      exact absurd h (by simp)
  | cons c rest ih =>
    rw [splitFirst] at h
    by_cases hp : pat.isPrefixOf (c :: rest)
    · rw [if_pos hp] at h
      simp only [Option.some.injEq, Prod.mk.injEq] at h
      obtain ⟨h1, h2⟩ := h
      subst h1; subst h2
      obtain ⟨t, ht⟩ := List.isPrefixOf_iff_prefix.mp hp
      rw [← ht, List.drop_left]
      simp
    · rw [if_neg hp] at h
      match hrec : splitFirst pat rest with
      | some (pre', post') =>
        rw [hrec] at h
        simp only [Option.some.injEq, Prod.mk.injEq] at h
        obtain ⟨h1, h2⟩ := h
        subst h1; subst h2
        simp [ih hrec]
      | none => rw [hrec] at h; exact absurd h (by simp)

theorem splitFirst_len {pat s pre post : List Char}
    (h : splitFirst pat s = some (pre, post)) :
    post.length + pat.length ≤ s.length := by
  have he := splitFirst_eq h
  have : s.length = pre.length + (pat.length + post.length) := by
    rw [he]; simp
  omega

theorem splitFirst_single_notMem {a : Char} {s pre post : List Char}
    (h : splitFirst [a] s = some (pre, post)) : a ∉ pre := by
  induction s generalizing pre post with
  | nil => rw [splitFirst] at h; simp at h
  | cons c rest ih =>
    rw [splitFirst] at h
    by_cases hp : ([a] : List Char).isPrefixOf (c :: rest)
    · rw [if_pos hp] at h
      simp only [Option.some.injEq, Prod.mk.injEq] at h
      obtain ⟨h1, _⟩ := h
      subst h1
      simp
    · rw [if_neg hp] at h
      match hrec : splitFirst [a] rest with
      | some (pre', post') =>
        rw [hrec] at h
        simp only [Option.some.injEq, Prod.mk.injEq] at h
        obtain ⟨h1, h2⟩ := h
        subst h1; subst h2
        have hca : c ≠ a := by
          intro hca
          subst hca
          exact hp (by simp [List.isPrefixOf])
        simp only [List.mem_cons, not_or]
        exact ⟨fun hac => hca hac.symm, ih hrec⟩
      | none => rw [hrec] at h; simp at h

theorem splitFirst_single {a : Char} {s pre post : List Char}
    (h : splitFirst [a] s = some (pre, post)) :
    s = pre ++ a :: post ∧ a ∉ pre :=
  ⟨by simpa using splitFirst_eq h, splitFirst_single_notMem h⟩

theorem splitFirst_single_none {a : Char} {s : List Char}
    (h : splitFirst [a] s = none) : a ∉ s := by
  induction s with
  | nil => simp
  | cons c rest ih =>
    rw [splitFirst] at h
    by_cases hp : ([a] : List Char).isPrefixOf (c :: rest)
    · rw [if_pos hp] at h; simp at h
    · rw [if_neg hp] at h
      have hca : c ≠ a := by
        intro hca
        subst hca
        exact hp (by simp [List.isPrefixOf])
      match hrec : splitFirst [a] rest with
      | some (pre', post') => rw [hrec] at h; simp at h
      | none =>
        simp only [List.mem_cons, not_or]
        exact ⟨fun hac => hca hac.symm, ih hrec⟩

theorem splitFirst_single_cons_self (a : Char) (s : List Char) :
    splitFirst [a] (a :: s) = some ([], s) := by
  have hpre : ([a] : List Char).isPrefixOf (a :: s) := by
    simp [List.isPrefixOf]
  rw [splitFirst, if_pos hpre]
  simp

/-- First index of `pat` in `hay` (JavaScript `indexOf`; the empty pattern is
found at index 0). -/
def firstIndexOf? : List Char → List Char → Option Nat
  | hay, pat =>
    if pat.isPrefixOf hay then some 0
    else
      match hay with
      | [] => none
      | _ :: t => (firstIndexOf? t pat).map (· + 1)

theorem firstIndexOf?_some {hay pat : List Char} {i : Nat}
    (h : firstIndexOf? hay pat = some i) :
    pat <+: hay.drop i ∧ i + pat.length ≤ hay.length := by
  induction hay generalizing i with
  | nil =>
    rw [firstIndexOf?] at h
    by_cases hp : pat.isPrefixOf ([] : List Char)
    · rw [if_pos hp] at h
      simp only [Option.some.injEq] at h
      subst h
      have hpp := List.isPrefixOf_iff_prefix.mp hp
      exact ⟨hpp, by simpa using hpp.length_le⟩
    · rw [if_neg hp] at h; simp at h
  | cons c t ih =>
    rw [firstIndexOf?] at h
    by_cases hp : pat.isPrefixOf (c :: t)
    · rw [if_pos hp] at h
      simp only [Option.some.injEq] at h
      subst h
      have hpp := List.isPrefixOf_iff_prefix.mp hp
      exact ⟨by simpa using hpp, by simpa using hpp.length_le⟩
    · rw [if_neg hp] at h
      match hrec : firstIndexOf? t pat with
      | some j =>
        rw [hrec] at h
        simp at h
        subst h
        obtain ⟨h1, h2⟩ := ih hrec
        exact ⟨by simpa using h1, by simp; omega⟩
      | none => rw [hrec] at h; simp at h

/-- JavaScript `String.prototype.substring` (clamps both indices to the string
length and swaps them when given out of order). -/
def jsSubstring (s : List Char) (a b : Nat) : List Char :=
  let a' := min a s.length
  let b' := min b s.length
  (s.take (max a' b')).drop (min a' b')

/-- JavaScript `String.prototype.trim` (also the effect of the builder's
`replace(/^\s+|\s+$/g, '')` pass, which removes the same character set). -/
def trimJs (s : List Char) : List Char :=
  ((s.dropWhile isJsSpace).reverse.dropWhile isJsSpace).reverse

/-- JavaScript `split('\n')`. -/
def splitLines : List Char → List (List Char)
  | [] => [[]]
  | c :: rest =>
    if c = '\n' then [] :: splitLines rest
    else
      match splitLines rest with
      | l :: ls => (c :: l) :: ls
      | [] => [[c]]

/-- Join lines back, appending a newline to each (the shape in which
`extractSections` accumulates section content). -/
def joinNl (ls : List (List Char)) : List Char :=
  (ls.map (fun l => l ++ ['\n'])).flatten

/-! ## The normalization passes of `cleanContent` (Index Builder)

Each definition models one `replace` pass of `cleanContent` in
`src/_data/fullSearchIndex.js`, with JavaScript's global leftmost-match,
non-overlapping replacement semantics. -/

/-- A code fence: three backticks. -/
def fence : List Char := [backtick, backtick, backtick]

/-- Pass 1: global replace of the lazy pair pattern (three backticks, a lazily
matched body, three backticks) with the empty string.  A lazy body ends at the
next fence occurrence; an unpaired fence produces no match and is kept. -/
def removeFenced (s : List Char) : List Char :=
  match h1 : splitFirst fence s with
  | none => s
  | some (pre, rest1) =>
    match h2 : splitFirst fence rest1 with
    | none => s
    | some (_, rest2) => pre ++ removeFenced rest2
termination_by s.length
decreasing_by
  have l1 := splitFirst_len h1
  have l2 := splitFirst_len h2
  simp [fence] at l1 l2
  omega

/-- Pass 2: global replace of inline code (a backtick, one or more
non-backtick characters, a backtick) with the empty string. -/
def removeInline (s : List Char) : List Char :=
  match s with
  | [] => []
  | c :: rest =>
    if c = backtick then
      match h1 : splitFirst [backtick] rest with
      | some (pre, post) =>
        if pre = [] then c :: removeInline rest else removeInline post
      | none => c :: removeInline rest
    else c :: removeInline rest
termination_by s.length
decreasing_by
  · simp
  · have := splitFirst_len h1
    simp at this ⊢
    omega
  · simp
  · simp

/-- Head parse of a markdown link target: an opening parenthesis, one or more
non-close-parenthesis characters, a closing parenthesis; returns the
remainder after the close. -/
def linkTarget? (l : List Char) : Option (List Char) :=
  match l with
  | [] => none
  | c :: rest =>
    if c = '(' then
      match splitFirst [')'] rest with
      | some (tgt, post) => if tgt = [] then none else some post
      | none => none
    else none

theorem linkTarget?_len {l post : List Char} (h : linkTarget? l = some post) :
    post.length + 2 ≤ l.length := by
  cases l with
  | nil => simp [linkTarget?] at h
  | cons c rest =>
    rw [linkTarget?] at h
    by_cases hc : c = '('
    · rw [if_pos hc] at h
      split at h
      next tgt post' heq =>
        by_cases ht : tgt = ([] : List Char)
        · rw [if_pos ht] at h; simp at h
        · rw [if_neg ht] at h
          simp only [Option.some.injEq] at h
          subst h
          have he := splitFirst_eq heq
          have h1 : 1 ≤ tgt.length := by
            cases tgt with
            | nil => exact absurd rfl ht
            | cons x xs => simp
          have h2 : rest.length = tgt.length + (1 + post'.length) := by
            rw [he]; simp; omega
          simp
          omega
      next heq => simp at h
    · rw [if_neg hc] at h; simp at h

/-- Pass 3: global replace of markdown links (bracketed text, one or more
non-close-bracket characters, followed by a parenthesised target) with the
bracketed text alone. -/
def removeLinks (s : List Char) : List Char :=
  match s with
  | [] => []
  | c :: rest =>
    if c = '[' then
      match h1 : splitFirst [']'] rest with
      | some (txt, afterTxt) =>
        if txt = [] then c :: removeLinks rest
        else
          match h2 : linkTarget? afterTxt with
          | some post => txt ++ removeLinks post
          | none => c :: removeLinks rest
      | none => c :: removeLinks rest
    else c :: removeLinks rest
termination_by s.length
decreasing_by
  · simp
  · have l1 := splitFirst_len h1
    have l2 := linkTarget?_len h2
    simp at l1 ⊢
    omega
  · simp
  · simp
  · simp

/-- Pass 4: remove every markdown formatting character matched by the class
containing hash, asterisk, underscore and tilde. -/
def removeFormatting (s : List Char) : List Char :=
  s.filter (fun c => !(c = '#' || c = '*' || c = '_' || c = '~'))

/-- Case-insensitive test for a table-of-contents marker at the head. -/
def tocAt (s : List Char) : Bool :=
  match s with
  | a :: b :: t :: o :: c :: d :: e :: _ =>
    a = '[' && b = '[' && jsLower t = 't' && jsLower o = 'o' && jsLower c = 'c' &&
      d = ']' && e = ']'
  | _ => false

/-- Pass 5: global, case-insensitive removal of the 7-character
table-of-contents marker. -/
def removeToc (s : List Char) : List Char :=
  match s with
  | [] => []
  | c :: rest =>
    if tocAt (c :: rest) then removeToc ((c :: rest).drop 7)
    else c :: removeToc rest
termination_by s.length
decreasing_by
  · simp
    omega
  · simp

/-- The opening of an HTML comment. -/
def commentOpen : List Char := ['<', '!', '-', '-']

/-- The closing of an HTML comment. -/
def commentClose : List Char := ['-', '-', '>']

/-- Pass 6: global replace of HTML comments (lazy body between the comment
delimiters) with the empty string. -/
def removeComments (s : List Char) : List Char :=
  match h1 : splitFirst commentOpen s with
  | none => s
  | some (pre, rest1) =>
    match h2 : splitFirst commentClose rest1 with
    | none => s
    | some (_, rest2) => pre ++ removeComments rest2
termination_by s.length
decreasing_by
  have l1 := splitFirst_len h1
  have l2 := splitFirst_len h2
  simp [commentOpen, commentClose] at l1 l2
  omega

/-- Pass 7: global replace of HTML tags (an open angle bracket, one or more
non-close-angle characters, a close angle bracket) with the empty string. -/
def removeTags (s : List Char) : List Char :=
  match s with
  | [] => []
  | c :: rest =>
    if c = '<' then
      match h1 : splitFirst ['>'] rest with
      | some (pre, post) =>
        if pre = [] then c :: removeTags rest else removeTags post
      | none => c :: removeTags rest
    else c :: removeTags rest
termination_by s.length
decreasing_by
  · simp
  · have := splitFirst_len h1
    simp at this ⊢
    omega
  · simp
  · simp

/-- Emit a pending run of newlines: runs of three or more collapse to two. -/
def emitNl (n : Nat) : List Char :=
  if 3 ≤ n then ['\n', '\n'] else List.replicate n '\n'

/-- Scanner for pass 8 carrying the length of the pending newline run. -/
def collapseNlAux : Nat → List Char → List Char
  | n, [] => emitNl n
  | n, c :: rest =>
    if c = '\n' then collapseNlAux (n + 1) rest
    else emitNl n ++ c :: collapseNlAux 0 rest

/-- Pass 8: collapse runs of three or more newlines to exactly two. -/
def collapseNewlines (s : List Char) : List Char := collapseNlAux 0 s

/-- `cleanContent` of the Index Builder: the eight replacement passes, then
the whitespace trim (pass 9) and lowercasing (pass 10), in source order. -/
def cleanContent (content : List Char) : List Char :=
  lowerStr (trimJs (collapseNewlines (removeTags (removeComments (removeToc
    (removeFormatting (removeLinks (removeInline (removeFenced content)))))))))

/-! ## Section extraction (Index Builder)

`extractSections` walks the raw markdown body line by line, starting a new
section at each heading of levels 2-4 and accumulating other lines into the
current section's content; a section is emitted only when its accumulated
content is nonempty (JavaScript truthiness of the content string). -/

/-- Match of the anchored JavaScript heading regex with between `lo` and `hi`
leading hash marks, one or more whitespace characters, and a nonempty rest
matched by the dot class up to the end of the line.  Returns the heading
level and captured heading text.  The whitespace run is greedy but backtracks
to leave one character for the rest when the line ends in whitespace. -/
def headingMatchRange (lo hi : Nat) (line : List Char) : Option (Nat × List Char) :=
  let hashes := line.takeWhile (fun c => c = '#')
  let rest := line.dropWhile (fun c => c = '#')
  let ws := rest.takeWhile isJsSpace
  let txt := rest.dropWhile isJsSpace
  if lo ≤ hashes.length ∧ hashes.length ≤ hi ∧ ws ≠ [] then
    if txt ≠ [] then
      if txt.all isDotChar then some (hashes.length, txt) else none
    else if 2 ≤ ws.length ∧ (ws.drop (ws.length - 1)).all isDotChar then
      some (hashes.length, ws.drop (ws.length - 1))
    else none
  else none

/-- The heading pattern used by `extractSections` (levels 2-4). -/
def headingMatch (line : List Char) : Option (Nat × List Char) :=
  headingMatchRange 2 4 line

/-- Scanner replacing each whitespace run with a single hyphen (the
`replace` of whitespace runs in the slug computation); the flag records a
pending run. -/
def wsToHyphenAux : Bool → List Char → List Char
  | pending, [] => if pending then ['-'] else []
  | pending, c :: rest =>
    if isJsSpace c then wsToHyphenAux true rest
    else (if pending then ['-'] else []) ++ c :: wsToHyphenAux false rest

/-- Replace every whitespace run with a single hyphen. -/
def collapseWsToHyphen (s : List Char) : List Char := wsToHyphenAux false s

/-- Remove the leading and the trailing hyphen run. -/
def trimHyphens (s : List Char) : List Char :=
  ((s.dropWhile (fun c => c = '-')).reverse.dropWhile (fun c => c = '-')).reverse

/-- The slug of a heading as computed by `extractSections`: lowercase, keep
only word characters, whitespace and hyphens, replace whitespace runs with a
hyphen, trim hyphen runs at both ends. -/
def slugify (h : List Char) : List Char :=
  trimHyphens (collapseWsToHyphen
    ((lowerStr h).filter (fun c => isWordChar c || isJsSpace c || c = '-')))

/-- One section accumulated by `extractSections`. -/
structure DocSection where
  heading : List Char
  id : List Char
  content : List Char
  level : Nat
deriving DecidableEq

/-- The initial accumulator section of `extractSections`. -/
def emptySection : DocSection := ⟨[], [], [], 0⟩

/-- One step of the per-line loop of `extractSections`: a heading line pushes
the current section when its content is nonempty and starts a fresh one; any
other line is appended (with its newline) to the current content. -/
def sectionStep (acc : List DocSection × DocSection) (line : List Char) :
    List DocSection × DocSection :=
  match headingMatch line with
  | some (lvl, h) =>
    ((if acc.2.content ≠ [] then acc.1 ++ [acc.2] else acc.1),
     ⟨h, slugify h, [], lvl⟩)
  | none =>
    (acc.1, ⟨acc.2.heading, acc.2.id, acc.2.content ++ (line ++ ['\n']),
      acc.2.level⟩)

/-- `extractSections` of the Index Builder. -/
def extractSections (content : List Char) : List DocSection :=
  let r := (splitLines content).foldl sectionStep ([], emptySection)
  if r.2.content ≠ [] then r.1 ++ [r.2] else r.1

/-- A line that is not a level-2-4 heading. -/
def noHead (line : List Char) : Bool := (headingMatch line).isNone

/-- Emit a section exactly when its content is nonempty (the push guard of
`extractSections`). -/
def emitSection (sec : DocSection) : List DocSection :=
  if sec.content ≠ [] then [sec] else []

theorem dropWhile_len_le {α : Type} (p : α → Bool) (l : List α) :
    (l.dropWhile p).length ≤ l.length := by
  induction l with
  | nil => simp
  | cons a t ih =>
    rw [List.dropWhile_cons]
    split
    · simp
      omega
    · simp

/-- Grouped reading of the section loop: each heading line opens a group
holding the following non-heading lines as its body; a group is kept exactly
when its body is nonempty. -/
def sectionGroups : List (List Char) → List DocSection
  | [] => []
  | l :: ls =>
    match headingMatch l with
    | none => sectionGroups ls
    | some (lvl, h) =>
      (if ls.takeWhile noHead ≠ [] then
        [⟨h, slugify h, joinNl (ls.takeWhile noHead), lvl⟩]
      else []) ++ sectionGroups (ls.dropWhile noHead)
termination_by ls => ls.length
decreasing_by
  · simp
  · have := dropWhile_len_le noHead ls
    simp
    omega

/-- Specification-side reading of `extractSections` for the amended claim: an
optional preamble pseudo-section (empty heading and id) holding the lines
before the first heading, then one section per heading whose body is
nonempty, in document order. -/
def sectionsAmended (content : List Char) : List DocSection :=
  let lines := splitLines content
  (if lines.takeWhile noHead ≠ [] then
    [⟨[], [], joinNl (lines.takeWhile noHead), 0⟩]
  else []) ++ sectionGroups (lines.dropWhile noHead)

/-! ## Keywords (Index Builder) -/

/-- Split at every JavaScript line terminator: the segments on which the
multiline flag anchors the keyword heading pattern. -/
def lineSegments : List Char → List (List Char)
  | [] => [[]]
  | c :: rest =>
    if isLineTerm c then [] :: lineSegments rest
    else
      match lineSegments rest with
      | l :: ls => (c :: l) :: ls
      | [] => [[c]]

/-- The text a keyword match contributes: strip the leading hash run and the
whitespace run after it (the inner `replace` of the keywords expression),
then lowercase. -/
def keywordOfSegment (seg : List Char) : List Char :=
  lowerStr ((seg.dropWhile (fun c => c = '#')).dropWhile isJsSpace)

/-- JavaScript `join(' ')`. -/
def joinSpace : List (List Char) → List Char
  | [] => []
  | [x] => x
  | x :: y :: t => x ++ ' ' :: joinSpace (y :: t)

/-- The `keywords` field: every line segment matching the level-1-3 heading
pattern contributes its stripped, lowercased text; matches are joined with
single spaces (no match at all yields the empty string). -/
def keywordsOf (body : List Char) : List Char :=
  joinSpace
    ((lineSegments body).filterMap (fun seg =>
      match headingMatchRange 1 3 seg with
      | some _ => some (keywordOfSegment seg)
      | none => none))

/-! ## Front matter (model of the `gray-matter` dependency) -/

/-- Result of front-matter parsing: an optional `title` value and the body. -/
structure Matter where
  title? : Option (List Char)
  body : List Char

/-- The opening front-matter delimiter (first file line). -/
def fmOpen : List Char := ['-', '-', '-', '\n']

/-- The closing front-matter delimiter. -/
def fmClose : List Char := ['\n', '-', '-', '-', '\n']

/-- Strip one pair of surrounding double quotes, when present. -/
def stripQuotes (v : List Char) : List Char :=
  match v with
  | '"' :: rest =>
    if rest ≠ [] ∧ rest.getLast? = some '"' then rest.dropLast else '"' :: rest
  | _ => v

/-- Title value of a front-matter line of the shape `title: value`. -/
def titleOfLine (line : List Char) : Option (List Char) :=
  if ("title:".data).isPrefixOf line then
    some (stripQuotes (trimJs (line.drop 6)))
  else none

/-- Model of the `gray-matter` split used by the builder: a file opening with
the delimiter yields the block up to the closing delimiter (scanned for a
`title` key) and the body after it; any other file is all body with no data.
`gray-matter` is a third-party dependency, so only the behaviour the builder
relies on (the `data.title` lookup and the `content` remainder) is
modelled. -/
def parseMatter (file : List Char) : Matter :=
  if fmOpen.isPrefixOf file then
    match splitFirst fmClose (file.drop 4) with
    | some (fm, body) => ⟨(splitLines fm).findSome? titleOfLine, body⟩
    | none => ⟨none, file⟩
  else ⟨none, file⟩

/-! ## The Index Builder (`module.exports` of `fullSearchIndex.js`) -/

/-- One manifest entry: source file, site URL, default title. -/
structure PageFile where
  file : List Char
  url : List Char
  title : List Char

/-- The static manifest `pageFiles` of `fullSearchIndex.js`. -/
def pageFiles : List PageFile :=
  [⟨"index.md".data, "/".data, "Home".data⟩,
   ⟨"getting-started.md".data, "/getting-started/".data,
    "Getting Started".data⟩,
   ⟨"architecture.md".data, "/architecture/".data, "Architecture".data⟩,
   ⟨"scotaccount-guide.md".data, "/scotaccount-guide/".data,
    "Implementation Guide".data⟩,
   ⟨"scotaccount-complete-guide.md".data, "/scotaccount-complete-guide/".data,
    "Comprehensive Guide".data⟩,
   ⟨"scotaccount-token-validation-module.md".data,
    "/scotaccount-token-validation-module/".data,
    "Token Validation Module".data⟩,
   ⟨"integration-examples.md".data, "/integration-examples/".data,
    "Integration Examples".data⟩,
   ⟨"scotaccount-modular-structure.md".data,
    "/scotaccount-modular-structure/".data, "Modular Structure".data⟩]

/-- One `sections` entry of a Document Record. -/
structure SectionOut where
  heading : List Char
  id : List Char
  content : List Char
deriving DecidableEq

/-- A Document Record produced by the Index Builder. -/
structure DocRecord where
  title : List Char
  url : List Char
  content : List Char
  summary : List Char
  keywords : List Char
  sections : List SectionOut
deriving DecidableEq

/-- `prefixUrl`: prepend the path prefix, with one trailing slash removed,
unless the prefix is the root path. -/
def prefixUrl (pathPfx url : List Char) : List Char :=
  if pathPfx = ['/'] then url
  else (if pathPfx.getLast? = some '/' then pathPfx.dropLast else pathPfx) ++ url

/-- The record pushed for one readable manifest entry: front-matter title (a
falsy value falls back to the manifest default), cleaned content, the first
200 characters plus an unconditional ellipsis as summary, heading keywords,
and the extracted sections with cleaned per-section content. -/
def buildRecord (pathPfx : List Char) (page : PageFile) (file : List Char) :
    DocRecord :=
  let m := parseMatter file
  let cleaned := cleanContent m.body
  ⟨(match m.title? with
    | some t => if t = [] then page.title else t
    | none => page.title),
   prefixUrl pathPfx page.url,
   cleaned,
   jsSubstring cleaned 0 200 ++ ("...".data),
   keywordsOf m.body,
   (extractSections m.body).map (fun s => ⟨s.heading, s.id, cleanContent s.content⟩)⟩

/-- The whole builder: the `forEach` over the manifest pushes one record per
entry whose file the file system delivers, and skips every other entry (the
`existsSync` guard together with the per-entry `try`/`catch` that logs and
continues). -/
def fullSearchIndex (pathPfx : List Char)
    (fs : List Char → Option (List Char)) : List DocRecord :=
  pageFiles.foldl (fun pages page =>
    match fs page.file with
    | some file => pages ++ [buildRecord pathPfx page file]
    | none => pages) []

/-! ## The Query Engine (the `DocumentationSearch` client module) -/

/-- A record of the client's search data (title, url, content only). -/
structure ClientRecord where
  title : List Char
  url : List Char
  content : List Char
deriving DecidableEq

/-- The page list hardcoded in `loadSearchData`: the client module embeds
this literal array rather than fetching the builder's index. -/
def clientSearchData : List ClientRecord :=
  [⟨"Home".data, "/".data,
    ("ScotAccount technical documentation Scottish Government identity authentication system getting started architecture".data)⟩,
   ⟨"Getting Started".data, "/getting-started/".data,
    ("Quick start guide 30 minutes setup configuration authentication flow token validation OIDC OpenID Connect".data)⟩,
   ⟨"Architecture".data, "/architecture/".data,
    ("System architecture components authentication service token validation identity provider OIDC flow sequence diagrams".data)⟩,
   ⟨"Complete Guide".data, "/scotaccount-complete-guide/".data,
    ("Comprehensive implementation guide detailed setup configuration endpoints authentication flow security".data)⟩,
   ⟨"Token Validation Module".data, "/scotaccount-token-validation-module/".data,
    ("Token validation security JWT verification authentication middleware implementation".data)⟩,
   ⟨"Modular Structure".data, "/scotaccount-modular-structure/".data,
    ("Modular architecture design patterns components separation concerns implementation structure".data)⟩,
   ⟨"Integration Examples".data, "/integration-examples/".data,
    ("Integration examples, practical implementation scenarios, documentation improvement recommendations, real-world use cases, step-by-step guides.".data)⟩]

/-- One key of the Fuse.js options: a name and an optional weight. -/
structure FuseKeySpec where
  name : List Char
  weight : Option Nat
deriving DecidableEq

/-- The Fuse.js options relevant here (threshold 0.4 stored in tenths). -/
structure FuseOptions where
  keys : List FuseKeySpec
  thresholdTenths : Nat
  minMatchCharLength : Nat
  includeScore : Bool

/-- The options object passed to the Fuse constructor in `setupFuse`: the
two keys `title` and `content` with no explicit weights, threshold 0.4,
minimum match length 2, scores included. -/
def fuseOptions : FuseOptions :=
  ⟨[⟨"title".data, none⟩, ⟨"content".data, none⟩], 4, 2, true⟩

/-- Fuse.js gives every key without an explicit weight the default weight
1 (documented Fuse.js behaviour for string keys and weightless key
objects). -/
def effectiveWeight (k : FuseKeySpec) : Nat := k.weight.getD 1

/-- The effective weight of the named key of an options object (0 when the
key is absent). -/
def keyWeight (opts : FuseOptions) (name : List Char) : Nat :=
  match opts.keys.find? (fun k => k.name == name) with
  | some k => effectiveWeight k
  | none => 0

/-- Stable insertion into a score-sorted list. -/
def ordInsert (x : Nat × ClientRecord) :
    List (Nat × ClientRecord) → List (Nat × ClientRecord)
  | [] => [x]
  | y :: ys => if x.1 < y.1 then x :: y :: ys else y :: ordInsert x ys

/-- Stable sort by ascending score. -/
def sortByScore : List (Nat × ClientRecord) → List (Nat × ClientRecord)
  | [] => []
  | x :: xs => ordInsert x (sortByScore xs)

/-- Model of `fuse.search(query).map(r => r.item)`: Fuse.js is an external
library, modelled as an arbitrary scoring function over the indexed records;
the search returns the records the scorer matches, ordered by ascending
score.  By construction every item comes from the indexed list, which is the
documented behaviour of Fuse.js search results. -/
def fuseSearch (score : ClientRecord → List Char → Option Nat)
    (data : List ClientRecord) (q : List Char) : List ClientRecord :=
  (sortByScore (data.filterMap (fun r => (score r q).map (fun s => (s, r))))).map
    (fun p => p.2)

/-- The engine state: the loaded search data and the optional matcher. -/
structure EngineState where
  searchData : List ClientRecord
  fuse : Option (List Char → List ClientRecord)

/-- The state after `init` (`loadSearchData` then `setupFuse`), for any
scoring behaviour of the external matcher: the hardcoded data and a matcher
built over it. -/
def initEngine (score : ClientRecord → List Char → Option Nat) : EngineState :=
  ⟨clientSearchData, some (fuseSearch score clientSearchData)⟩

/-- `performSearch`: a no-op returning no results when the matcher is absent
(the `if (!this.fuse) return` guard), otherwise the matcher's ranked items;
the state is never mutated. -/
def performSearch (st : EngineState) (q : List Char) :
    EngineState × List ClientRecord :=
  match st.fuse with
  | none => (st, [])
  | some f => (st, f q)

/-- What the input handler does to the results panel. -/
inductive UIAction where
  | render (results : List ClientRecord) (query : List Char)
  | hide
deriving DecidableEq

/-- The `input` handler bound by `bindEvents`: trim the control's value, run
`performSearch` and render when the trimmed query has at least two
characters, and hide the results panel otherwise. -/
def handleInput (st : EngineState) (value : List Char) : UIAction :=
  let q := trimJs value
  if 2 ≤ q.length then UIAction.render (performSearch st q).2 q
  else UIAction.hide

/-- `getSearchSummary`: find the first occurrence of the lowercased query in
the lowercased content; fall back to the first 120 characters plus an
ellipsis when absent; otherwise cut the window from 40 before the match to
40 after it, prepending an ellipsis when the window starts past 0 and
appending one when it stops short of the end. -/
def getSearchSummary (content query : List Char) : List Char :=
  let contentL := lowerStr content
  let queryL := lowerStr query
  match firstIndexOf? contentL queryL with
  | none => jsSubstring content 0 120 ++ ("...".data)
  | some i =>
    let start := i - 40
    let stop := min contentL.length (i + query.length + 40)
    let snippet := jsSubstring content start stop
    let s1 := if 0 < start then ("...".data) ++ snippet else snippet
    if stop < contentL.length then s1 ++ ("...".data) else s1

/-- The display-summary rule in the specification's words: when the query
occurs case-insensitively in the content at first index `i`, the substring
of the content from `max 0 (i - 40)` to `min length (i + |query| + 40)`,
with an ellipsis prepended exactly when `i - 40 > 0` and appended exactly
when the window is clipped before the end of the content; when the query
does not occur, the first 120 characters of the content plus an ellipsis. -/
def specDisplaySummary (content query : List Char) : List Char :=
  match firstIndexOf? (lowerStr content) (lowerStr query) with
  | none => content.take 120 ++ ("...".data)
  | some i =>
    (if (0 : Int) < (i : Int) - 40 then ("...".data) else []) ++
      ((content.take (min content.length (i + query.length + 40))).drop
        ((max 0 ((i : Int) - 40)).toNat)) ++
      (if i + query.length + 40 < content.length then ("...".data) else [])

/-! ## Character-level lemmas -/

theorem char_eq_iff_toNat {c d : Char} : c = d ↔ c.toNat = d.toNat := by
  constructor
  · intro h; rw [h]
  · intro h
    apply Char.ext
    exact UInt32.toNat.inj h

theorem char_toNat_ofNat {n : Nat} (h : n < 55296) : (Char.ofNat n).toNat = n := by
  have hv : n.isValidChar := Or.inl h
  rw [Char.ofNat, dif_pos hv, Char.ofNatAux]
  simp [Char.toNat, UInt32.toNat]

theorem isUpper_iff {c : Char} : c.isUpper = true ↔ 65 ≤ c.toNat ∧ c.toNat ≤ 90 := by
  simp [Char.isUpper, Char.toNat, UInt32.le_def, BitVec.le_def, UInt32.toNat]

theorem jsLower_eq_self {c : Char} (h : ¬(65 ≤ c.toNat ∧ c.toNat ≤ 90)) :
    jsLower c = c := by
  rw [jsLower, if_neg (fun hU => h (isUpper_iff.mp hU))]

theorem jsLower_toNat_of_upper {c : Char} (h : 65 ≤ c.toNat ∧ c.toNat ≤ 90) :
    (jsLower c).toNat = c.toNat + 32 := by
  rw [jsLower, if_pos (isUpper_iff.mpr h)]
  exact char_toNat_ofNat (by omega)

theorem jsLower_idem (c : Char) : jsLower (jsLower c) = jsLower c := by
  by_cases hU : 65 ≤ c.toNat ∧ c.toNat ≤ 90
  · have h1 := jsLower_toNat_of_upper hU
    exact jsLower_eq_self (by omega)
  · rw [jsLower_eq_self hU, jsLower_eq_self hU]

theorem jsLower_eq_iff {c t : Char} (h1 : ¬(65 ≤ t.toNat ∧ t.toNat ≤ 90))
    (h2 : ¬(97 ≤ t.toNat ∧ t.toNat ≤ 122)) : jsLower c = t ↔ c = t := by
  constructor
  · intro h
    by_cases hU : 65 ≤ c.toNat ∧ c.toNat ≤ 90
    · have := jsLower_toNat_of_upper hU
      rw [h] at this
      exact absurd ⟨by omega, by omega⟩ h2
    · rwa [jsLower_eq_self hU] at h
  · intro h
    subst h
    exact jsLower_eq_self h1

theorem lowerStr_idem (s : List Char) : lowerStr (lowerStr s) = lowerStr s := by
  rw [lowerStr, lowerStr, List.map_map]
  exact List.map_congr_left (fun c _ => jsLower_idem c)

theorem lowerStr_length (s : List Char) : (lowerStr s).length = s.length := by
  simp [lowerStr]

/-! ## Claim C8: field weights of the fuzzy index -/

/-- The ranking premise claim C8 asserts of the client's Fuse options: a
strictly higher effective weight for the `title` key than for the `content`
key. -/
def titleOutweighsContent : Prop :=
  keyWeight fuseOptions ("title".data) > keyWeight fuseOptions ("content".data)

/-- C8 counterexample: the options object of `setupFuse` gives `title` no
explicit weight, so both keys carry Fuse.js's default weight 1 and `title`
is not weighted above `content`. -/
theorem c8_counterexample : ¬ titleOutweighsContent := by
  unfold titleOutweighsContent
  decide

/-- C8 (amended): the fuzzy index is built over exactly the two fields
`title` and `content`, with no per-field weights: both receive the default
weight 1, so the configuration guarantees no title-over-content ranking. -/
theorem c8_equal_weights :
    fuseOptions.keys.map FuseKeySpec.name = ["title".data, "content".data] ∧
    fuseOptions.keys.map FuseKeySpec.weight = [none, none] ∧
    keyWeight fuseOptions ("title".data) = 1 ∧
    keyWeight fuseOptions ("content".data) = 1 := by decide

/-! ## Claim C6: minimum query length -/

/-- C6: a query whose trimmed value is shorter than the 2-character minimum
yields the hide action for every engine state — the matching structure is
never consulted and nothing is rendered (no empty-results message). -/
theorem c6_short_query_suppressed (st : EngineState) (value : List Char)
    (h : (trimJs value).length < 2) : handleInput st value = UIAction.hide := by
  rw [handleInput]
  exact if_neg (by omega)

/-- Witness for C6 at the one-character input (with surrounding whitespace
trimmed away): the handler hides the results panel. -/
theorem c6_witness :
    (trimJs (" a ".data)).length < 2 ∧
    handleInput (initEngine (fun _ _ => some 0)) (" a ".data) = UIAction.hide :=
  ⟨by decide, c6_short_query_suppressed _ _ (by decide)⟩

/-! ## Claim C9: idempotence of search -/

/-- C9: `performSearch` leaves the engine state unchanged, and calling it
twice in a row with a query of at least the minimum length yields the same
ordered result list both times. -/
theorem c9_search_idempotent (st : EngineState) (q : List Char)
    (h : 2 ≤ q.length) :
    (performSearch st q).1 = st ∧
    (performSearch (performSearch st q).1 q).2 = (performSearch st q).2 := by
  cases hf : st.fuse <;> simp [performSearch, hf]

/-- Witness for C9 at a concrete state and query. -/
theorem c9_witness :
    2 ≤ ("auth".data).length ∧
    ((performSearch (initEngine (fun _ _ => some 0)) ("auth".data)).1 =
        initEngine (fun _ _ => some 0) ∧
      (performSearch (performSearch (initEngine (fun _ _ => some 0))
          ("auth".data)).1 ("auth".data)).2 =
        (performSearch (initEngine (fun _ _ => some 0)) ("auth".data)).2) :=
  ⟨by decide, c9_search_idempotent _ _ (by decide)⟩

/-! ## Claim C5: missing manifest files are skipped -/

theorem fullSearchIndex_foldl_spec (pathPfx : List Char)
    (fs : List Char → Option (List Char)) (l : List PageFile)
    (acc : List DocRecord) :
    l.foldl (fun pages page =>
      match fs page.file with
      | some file => pages ++ [buildRecord pathPfx page file]
      | none => pages) acc =
    acc ++ l.filterMap (fun page => (fs page.file).map (buildRecord pathPfx page)) := by
  induction l generalizing acc with
  | nil => simp
  | cons p t ih =>
    cases hf : fs p.file with
    | none => simp [List.foldl_cons, hf, ih]
    | some f => simp [List.foldl_cons, hf, ih]

/-- C5: a manifest entry whose file the file system does not deliver is
skipped without aborting: the index is exactly the records of the readable
entries in manifest order, and its length is the number of readable
entries. -/
theorem c5_missing_files_skipped (pathPfx : List Char)
    (fs : List Char → Option (List Char)) :
    fullSearchIndex pathPfx fs =
      pageFiles.filterMap (fun page =>
        (fs page.file).map (buildRecord pathPfx page)) ∧
    (fullSearchIndex pathPfx fs).length =
      pageFiles.countP (fun page => (fs page.file).isSome) := by
  have hmain : fullSearchIndex pathPfx fs =
      pageFiles.filterMap (fun page =>
        (fs page.file).map (buildRecord pathPfx page)) := by
    rw [fullSearchIndex, fullSearchIndex_foldl_spec]
    simp
  refine ⟨hmain, ?_⟩
  rw [hmain]
  have : ∀ l : List PageFile,
      (l.filterMap (fun page =>
        (fs page.file).map (buildRecord pathPfx page))).length =
      l.countP (fun page => (fs page.file).isSome) := by
    intro l
    induction l with
    | nil => simp
    | cons p t ih =>
      cases hf : fs p.file with
      | none => simp [List.filterMap_cons, hf, ih, List.countP_cons]
      | some f => simp [List.filterMap_cons, hf, ih, List.countP_cons]
  exact this pageFiles

/-! ## Claim C4: summary truncation -/

theorem jsSubstring_zero_take (s : List Char) (n : Nat) :
    jsSubstring s 0 n = s.take n := by
  rw [jsSubstring]
  rcases Nat.le_total s.length n with h | h
  · simp [Nat.min_eq_left h, Nat.min_eq_right h, List.take_of_length_le h,
      List.take_of_length_le (Nat.le_refl s.length)]
  · simp [Nat.min_eq_right h]

/-- C4: every built Document Record's summary is the first 200 characters of
its content followed by the ellipsis; the ellipsis is appended
unconditionally, so when the content is 200 characters or shorter the
summary is the whole content plus the ellipsis. -/
theorem c4_summary_truncation (pathPfx : List Char) (page : PageFile)
    (file : List Char) :
    (buildRecord pathPfx page file).summary =
      (buildRecord pathPfx page file).content.take 200 ++ ("...".data) ∧
    ((buildRecord pathPfx page file).content.length ≤ 200 →
      (buildRecord pathPfx page file).summary =
        (buildRecord pathPfx page file).content ++ ("...".data)) := by
  have h1 : (buildRecord pathPfx page file).summary =
      (buildRecord pathPfx page file).content.take 200 ++ ("...".data) := by
    rw [buildRecord]
    simp only []
    rw [jsSubstring_zero_take]
  refine ⟨h1, fun hlen => ?_⟩
  rw [h1, List.take_of_length_le hlen]

/-! ## Claims C3 and C10: section extraction -/

theorem joinNl_cons (l : List Char) (ls : List (List Char)) :
    joinNl (l :: ls) = (l ++ ['\n']) ++ joinNl ls := by
  simp [joinNl]

theorem joinNl_eq_nil_iff (ls : List (List Char)) : joinNl ls = [] ↔ ls = [] := by
  cases ls with
  | nil => simp [joinNl]
  | cons l t => simp [joinNl]

/-- The final push of `extractSections` (the last section is kept when its
content is nonempty). -/
def finishSections (r : List DocSection × DocSection) : List DocSection :=
  if r.2.content ≠ [] then r.1 ++ [r.2] else r.1

theorem extractSections_eq_finish (content : List Char) :
    extractSections content =
      finishSections ((splitLines content).foldl sectionStep ([], emptySection)) := rfl

theorem finishSections_pair (secs : List DocSection) (cur : DocSection) :
    finishSections (secs, cur) = secs ++ emitSection cur := by
  rw [finishSections, emitSection]
  split <;> simp_all

theorem sectionStep_heading {line : List Char} {lvl : Nat} {hd : List Char}
    (h : headingMatch line = some (lvl, hd)) (secs : List DocSection)
    (cur : DocSection) :
    sectionStep (secs, cur) line = (secs ++ emitSection cur, ⟨hd, slugify hd, [], lvl⟩) := by
  simp only [sectionStep, h, emitSection, Prod.mk.injEq]
  refine ⟨?_, trivial⟩
  split <;> simp

theorem sectionStep_line {line : List Char}
    (h : headingMatch line = none) (secs : List DocSection) (cur : DocSection) :
    sectionStep (secs, cur) line =
      (secs, ⟨cur.heading, cur.id, cur.content ++ (line ++ ['\n']), cur.level⟩) := by
  rw [sectionStep, h]

theorem extractLoop_spec (lines : List (List Char)) :
    ∀ (secs : List DocSection) (cur : DocSection),
    finishSections (lines.foldl sectionStep (secs, cur)) =
      secs ++
        emitSection ⟨cur.heading, cur.id,
          cur.content ++ joinNl (lines.takeWhile noHead), cur.level⟩ ++
        sectionGroups (lines.dropWhile noHead) := by
  induction lines with
  | nil =>
    intro secs cur
    rw [List.foldl_nil, finishSections_pair]
    simp [joinNl, sectionGroups]
  | cons l ls ih =>
    intro secs cur
    rw [List.foldl_cons]
    match hl : headingMatch l with
    | none =>
      have hnh : noHead l = true := by rw [noHead, hl]; rfl
      rw [sectionStep_line hl, ih,
        List.takeWhile_cons_of_pos hnh, List.dropWhile_cons_of_pos hnh,
        joinNl_cons]
      simp [List.append_assoc]
    | some (lvl, hd) =>
      have hnh : ¬ noHead l = true := by rw [noHead, hl]; simp
      have hemit : emitSection ⟨hd, slugify hd, joinNl (ls.takeWhile noHead), lvl⟩ =
          if ls.takeWhile noHead ≠ [] then
            [⟨hd, slugify hd, joinNl (ls.takeWhile noHead), lvl⟩]
          else [] := by
        rw [emitSection]
        by_cases hb : ls.takeWhile noHead = []
        · simp [hb, joinNl]
        · simp [hb, (joinNl_eq_nil_iff _).ne.mpr hb]
      have hpre : (⟨cur.heading, cur.id, cur.content ++ joinNl [], cur.level⟩ :
          DocSection) = cur := by
        simp [joinNl]
      rw [sectionStep_heading hl, ih]
      dsimp only [List.nil_append]
      rw [List.takeWhile_cons_of_neg hnh, List.dropWhile_cons_of_neg hnh,
        sectionGroups, hl]
      dsimp only
      rw [← hemit, hpre]
      simp [List.append_assoc]

/-- C3 (amended): `extractSections` computes exactly the grouped reading
`sectionsAmended` — an optional preamble pseudo-section holding the lines
before the first heading, then one entry per level-2-4 heading whose body
(the lines up to the next heading) is nonempty, in document order, each with
the id `slugify` of its heading (lowercase; characters other than word
characters, whitespace and hyphens removed; whitespace runs replaced by one
hyphen; hyphen runs trimmed at the ends) — and the heading
"PKCE Implementation" receives the id "pkce-implementation". -/
theorem c3_sections_amended :
    (∀ body : List Char, extractSections body = sectionsAmended body) ∧
    slugify ("PKCE Implementation".data) = ("pkce-implementation".data) := by
  constructor
  · intro body
    rw [extractSections_eq_finish, extractLoop_spec, sectionsAmended]
    have : emitSection ⟨emptySection.heading, emptySection.id,
        emptySection.content ++ joinNl ((splitLines body).takeWhile noHead),
        emptySection.level⟩ =
        if (splitLines body).takeWhile noHead ≠ [] then
          [⟨[], [], joinNl ((splitLines body).takeWhile noHead), 0⟩]
        else [] := by
      rw [emitSection]
      by_cases hb : (splitLines body).takeWhile noHead = []
      · simp [hb, joinNl, emptySection]
      · simp [emptySection, hb, (joinNl_eq_nil_iff _).ne.mpr hb]
    rw [this]
    simp [emptySection]
  · decide

/-- The slug rule in claim C3's words: lowercase, remove the characters that
are neither word characters nor whitespace (unlike the code's rule, a hyphen
in the heading is removed too), replace whitespace runs with one hyphen,
trim hyphens at the ends. -/
def claimSlug (h : List Char) : List Char :=
  trimHyphens (collapseWsToHyphen
    ((lowerStr h).filter (fun c => isWordChar c || isJsSpace c)))

/-- Claim C3 as stated: every document's sections list has exactly one entry
per level-2-4 heading, in document order, with claim-rule ids. -/
def sectionsPerHeading : Prop :=
  ∀ body : List Char,
    (extractSections body).map (fun s => (s.heading, s.id)) =
      ((splitLines body).filterMap headingMatch).map (fun p => (p.2, claimSlug p.2))

/-- C3 counterexample: in the document with preamble "intro" and headings
"A-B", "C", "D" (where "C" is immediately followed by another heading), the
extracted sections are the preamble pseudo-section, "A-B" with id "a-b" and
"D" — not one entry per heading, and the hyphen of "A-B" survives in the id,
against the claim rule's "ab". -/
theorem c3_counterexample : ¬ sectionsPerHeading := by
  intro h
  exact absurd (h ("intro\n## A-B\nt\n## C\n## D\nu".data)) (by decide)

/-- C10: when at least one line precedes the first level-2-4 heading of the
document, the first extracted section is a pseudo-section with empty heading
and empty id whose content is the preamble (each line with its newline) — an
entry corresponding to no heading of the document. -/
theorem c10_preamble_section (body : List Char)
    (h1 : (splitLines body).takeWhile noHead ≠ [])
    (h2 : (splitLines body).dropWhile noHead ≠ []) :
    (extractSections body).head? =
      some ⟨[], [], joinNl ((splitLines body).takeWhile noHead), 0⟩ := by
  rw [extractSections_eq_finish, extractLoop_spec]
  have : emitSection ⟨emptySection.heading, emptySection.id,
      emptySection.content ++ joinNl ((splitLines body).takeWhile noHead),
      emptySection.level⟩ =
      [⟨[], [], joinNl ((splitLines body).takeWhile noHead), 0⟩] := by
    rw [emitSection]
    simp [emptySection, (joinNl_eq_nil_iff _).ne.mpr h1]
  rw [this]
  simp

/-- Witness for C10 at a document with one preamble line and one heading. -/
theorem c10_witness :
    ((splitLines ("intro\n## Title\nbody".data)).takeWhile noHead ≠ [] ∧
     (splitLines ("intro\n## Title\nbody".data)).dropWhile noHead ≠ []) ∧
    (extractSections ("intro\n## Title\nbody".data)).head? =
      some ⟨[], [],
        joinNl ((splitLines ("intro\n## Title\nbody".data)).takeWhile noHead),
        0⟩ :=
  ⟨⟨by decide, by decide⟩,
   c10_preamble_section _ (by decide) (by decide)⟩

/-! ## Claim C2: the display summary -/

theorem jsSubstring_of_le {s : List Char} {a b : Nat} (ha : a ≤ b)
    (hb : b ≤ s.length) : jsSubstring s a b = (s.take b).drop a := by
  have h1 : min a s.length = a := Nat.min_eq_left (le_trans ha hb)
  have h2 : min b s.length = b := Nat.min_eq_left hb
  simp [jsSubstring, h1, h2, Nat.max_eq_right ha, Nat.min_eq_left ha]

/-- C2: `getSearchSummary` computes exactly the display-summary rule the
specification states — on a case-insensitive first occurrence at index `i`,
the window of the content from `max 0 (i - 40)` to
`min length (i + |query| + 40)`, with an ellipsis prepended exactly when
`i - 40 > 0` and appended exactly when the window stops short of the end of
the content; with no verbatim occurrence, the first 120 characters plus an
ellipsis. -/
theorem c2_display_summary (content query : List Char) :
    getSearchSummary content query = specDisplaySummary content query := by
  rw [getSearchSummary, specDisplaySummary]
  match hidx : firstIndexOf? (lowerStr content) (lowerStr query) with
  | none =>
    dsimp only
    rw [jsSubstring_zero_take]
  | some i =>
    obtain ⟨hpre, hlen⟩ := firstIndexOf?_some hidx
    rw [lowerStr_length, lowerStr_length] at hlen
    dsimp only
    have hcl : (lowerStr content).length = content.length := lowerStr_length content
    rw [hcl]
    have hstart : i - 40 ≤ min content.length (i + query.length + 40) := by omega
    rw [jsSubstring_of_le hstart (Nat.min_le_left _ _)]
    have hToNat : (max 0 ((i : Int) - 40)).toNat = i - 40 := by omega
    rw [hToNat]
    have hifStart : (0 < i - 40) = ((0 : Int) < (i : Int) - 40) := by
      apply propext
      omega
    have hifEnd : (min content.length (i + query.length + 40) < content.length) =
        (i + query.length + 40 < content.length) := by
      apply propext
      omega
    have hmin : (i + query.length + 40 < content.length) →
        min content.length (i + query.length + 40) = i + query.length + 40 := by
      omega
    by_cases hend : i + query.length + 40 < content.length
    · rw [Nat.min_eq_right (by omega : i + query.length + 40 ≤ content.length)] at *
      by_cases h40 : (0 : Int) < (i : Int) - 40
      · rw [if_pos h40, if_pos (by omega : 0 < i - 40), if_pos hend, if_pos hend]
      · rw [if_neg h40, if_neg (by omega : ¬ 0 < i - 40), if_pos hend, if_pos hend]
        simp
    · rw [Nat.min_eq_left (by omega : content.length ≤ i + query.length + 40)] at *
      rw [if_neg (by omega : ¬ content.length < content.length),
        if_neg hend]
      by_cases h40 : (0 : Int) < (i : Int) - 40
      · rw [if_pos h40, if_pos (by omega : 0 < i - 40)]
        simp
      · rw [if_neg h40, if_neg (by omega : ¬ 0 < i - 40)]
        simp

/-! ## Claim C1: what the Query Engine searches over -/

theorem cleanContent_lower (s : List Char) :
    lowerStr (cleanContent s) = cleanContent s := by
  rw [cleanContent]
  exact lowerStr_idem _

theorem builder_content_lower (pathPfx : List Char)
    (fs : List Char → Option (List Char)) (r : DocRecord)
    (hr : r ∈ fullSearchIndex pathPfx fs) : lowerStr r.content = r.content := by
  rw [fullSearchIndex, fullSearchIndex_foldl_spec] at hr
  simp only [List.nil_append, List.mem_filterMap] at hr
  obtain ⟨page, hpage, hmap⟩ := hr
  match hf : fs page.file with
  | none => rw [hf] at hmap; simp at hmap
  | some file =>
    rw [hf] at hmap
    simp at hmap
    rw [← hmap, buildRecord]
    exact cleanContent_lower _

/-- The first record hardcoded by `loadSearchData` (the "Home" page). -/
def homeClientRecord : ClientRecord := (clientSearchData.head?).getD ⟨[], [], []⟩

/-- Claim C1 as stated: every record of the client's search data is one of
the Index Builder's output records (carrying the builder-produced title, url
and content), whatever path prefix and file system the build ran over. -/
def clientDataFromBuilder : Prop :=
  ∀ (pathPfx : List Char) (fs : List Char → Option (List Char)),
    ∀ r ∈ clientSearchData, ∃ d ∈ fullSearchIndex pathPfx fs,
      d.title = r.title ∧ d.url = r.url ∧ d.content = r.content

/-- C1 counterexample: the client's hardcoded "Home" record has content that
is not lowercase, while every builder record's content is lowercase by
construction (`cleanContent` ends in `toLowerCase`), so the client's search
data does not come from the builder's index under any file system. -/
theorem c1_counterexample : ¬ clientDataFromBuilder := by
  intro h
  obtain ⟨d, hd, -, -, hcontent⟩ :=
    h ['/'] (fun _ => none) homeClientRecord (by decide)
  have hlow := builder_content_lower ['/'] (fun _ => none) d hd
  rw [hcontent] at hlow
  exact absurd hlow (by decide)

theorem mem_of_mem_ordInsert {x y : Nat × ClientRecord}
    {l : List (Nat × ClientRecord)} (h : y ∈ ordInsert x l) :
    y = x ∨ y ∈ l := by
  induction l with
  | nil => simpa [ordInsert] using h
  | cons z t ih =>
    rw [ordInsert] at h
    split at h
    · simpa using h
    · rcases List.mem_cons.mp h with h1 | h2
      · right; simp [h1]
      · rcases ih h2 with h3 | h4
        · left; exact h3
        · right; simp [h4]

theorem mem_of_mem_sortByScore {y : Nat × ClientRecord}
    {l : List (Nat × ClientRecord)} (h : y ∈ sortByScore l) : y ∈ l := by
  induction l with
  | nil => rw [sortByScore] at h; exact h
  | cons z t ih =>
    rw [sortByScore] at h
    rcases mem_of_mem_ordInsert h with h1 | h2
    · simp [h1]
    · simp [ih h2]

/-- C1 (amended): the Query Engine does not load the Index Builder's
serialized index — `loadSearchData` installs the 7-record list hardcoded in
the client module (records with only title, url and content) — and every
record `search()` returns is one of those hardcoded records, for any scoring
behaviour of the external matcher. -/
theorem c1_hardcoded_engine (score : ClientRecord → List Char → Option Nat)
    (q : List Char) (r : ClientRecord)
    (hr : r ∈ (performSearch (initEngine score) q).2) :
    (initEngine score).searchData = clientSearchData ∧
    clientSearchData.length = 7 ∧
    r ∈ clientSearchData := by
  refine ⟨rfl, by decide, ?_⟩
  rw [performSearch] at hr
  simp only [initEngine] at hr
  rw [fuseSearch] at hr
  simp only [List.mem_map] at hr
  obtain ⟨p, hp, hpr⟩ := hr
  have hmem := mem_of_mem_sortByScore hp
  simp only [List.mem_filterMap] at hmem
  obtain ⟨rec, hrec, hsc⟩ := hmem
  match hs : score rec q with
  | none => rw [hs] at hsc; simp at hsc
  | some sc =>
    rw [hs] at hsc
    simp at hsc
    rw [← hpr, ← hsc]
    exact hrec

/-- Witness for C1 (amended): with a scorer matching everything, the "Home"
record is returned and is one of the hardcoded records. -/
theorem c1_witness :
    homeClientRecord ∈
      (performSearch (initEngine (fun _ _ => some 0)) ("auth".data)).2 ∧
    ((initEngine (fun _ _ => some 0)).searchData = clientSearchData ∧
      clientSearchData.length = 7 ∧
      homeClientRecord ∈ clientSearchData) :=
  ⟨by decide,
   c1_hardcoded_engine (fun _ _ => some 0) ("auth".data) homeClientRecord
     (by decide)⟩

/-! ## Claim C7: lowercase content and keywords, no residual HTML tags

`hasTag s` decides whether `s` contains a substring matching the tag pattern
removed by pass 7 (an open angle bracket, one or more non-close-angle
characters, a close angle bracket); `hasTag_iff_decomposition` checks this
reading.  A tag starts at an open angle bracket whose first following close
angle bracket sits at distance at least two. -/

/-- The first close angle bracket after this point is at distance two or
more: a tag starts here when an open angle bracket precedes. -/
def gtFar (s : List Char) : Bool :=
  match s with
  | [] => false
  | c :: rest => !(c == '>') && rest.contains '>'

/-- Whether the string contains an HTML-tag substring. -/
def hasTag : List Char → Bool
  | [] => false
  | c :: rest => ((c == '<') && gtFar rest) || hasTag rest

theorem contains_iff_mem {a : Char} {l : List Char} :
    l.contains a = true ↔ a ∈ l := by
  simp [List.contains, List.elem_iff]

theorem gtFar_gt_head (s : List Char) : gtFar ('>' :: s) = false := by
  simp [gtFar]

theorem gtFar_no_gt {s : List Char} (h : '>' ∉ s) : gtFar s = false := by
  cases s with
  | nil => rfl
  | cons c rest =>
    rw [gtFar]
    have hc : rest.contains '>' = false := by
      rw [← Bool.not_eq_true]
      intro hm
      simp at h
      exact h.2 (contains_iff_mem.mp hm)
    rw [hc]
    simp

theorem gtFar_append {s t : List Char} (h : gtFar s = true) :
    gtFar (s ++ t) = true := by
  cases s with
  | nil => simp [gtFar] at h
  | cons c rest =>
    rw [gtFar] at h
    rw [List.cons_append, gtFar]
    obtain ⟨h1, h2⟩ := Bool.and_eq_true_iff.mp h
    have hm : (rest ++ t).contains '>' = true :=
      contains_iff_mem.mpr (List.mem_append.mpr (Or.inl (contains_iff_mem.mp h2)))
    rw [hm]
    simp [h1]

theorem hasTag_cons (c : Char) (rest : List Char) :
    hasTag (c :: rest) = (((c == '<') && gtFar rest) || hasTag rest) := rfl

theorem hasTag_cons_ne {c : Char} (h : ¬ c = '<') (rest : List Char) :
    hasTag (c :: rest) = hasTag rest := by
  rw [hasTag_cons]
  simp [h]

theorem hasTag_append_left {a b : List Char} (h : hasTag a = true) :
    hasTag (a ++ b) = true := by
  induction a with
  | nil => simp [hasTag] at h
  | cons c rest ih =>
    rw [hasTag_cons] at h
    rw [List.cons_append, hasTag_cons]
    rcases Bool.or_eq_true_iff.mp h with h1 | h2
    · have hc := Bool.and_eq_true_iff.mp h1
      rw [hc.1, gtFar_append hc.2]
      simp
    · rw [ih h2]
      simp

theorem hasTag_of_append {a b : List Char} (h : hasTag (a ++ b) = false) :
    hasTag a = false := by
  by_contra hc
  rw [hasTag_append_left (by revert hc; cases hasTag a <;> simp)] at h
  cases h

theorem hasTag_no_lt {s : List Char} (h : ∀ c ∈ s, ¬ c = '<') :
    hasTag s = false := by
  induction s with
  | nil => rfl
  | cons c rest ih =>
    rw [hasTag_cons]
    have hc : ¬ c = '<' := h c (by simp)
    simp [hc]
    exact ih (fun d hd => h d (by simp [hd]))

theorem hasTag_append_no_lt {c0 X : List Char}
    (h : ∀ c ∈ c0, ¬ c = '<') :
    hasTag (c0 ++ X) = hasTag X := by
  induction c0 with
  | nil => simp
  | cons c rest ih =>
    rw [List.cons_append, hasTag_cons_ne (h c (by simp))]
    exact ih (fun d hd => h d (by simp [hd]))

/-- The scan decides exactly the substring reading of the tag pattern: an
open angle bracket, a nonempty run of non-close-angle characters, a close
angle bracket. -/
theorem hasTag_iff_decomposition (s : List Char) :
    hasTag s = true ↔
      ∃ pre mid post,
        s = pre ++ '<' :: (mid ++ '>' :: post) ∧ mid ≠ [] ∧ '>' ∉ mid := by
  constructor
  · intro h
    induction s with
    | nil => simp [hasTag] at h
    | cons c rest ih =>
      rw [hasTag_cons] at h
      rcases Bool.or_eq_true_iff.mp h with h1 | h2
      · obtain ⟨hc, hfar⟩ := Bool.and_eq_true_iff.mp h1
        have hceq : c = '<' := by simpa using hc
        subst hceq
        cases rest with
        | nil => simp [gtFar] at hfar
        | cons d t =>
          rw [gtFar] at hfar
          obtain ⟨hd, hmem⟩ := Bool.and_eq_true_iff.mp hfar
          have hdne : ¬ d = '>' := by simpa using hd
          have hmem' : '>' ∈ t := contains_iff_mem.mp hmem
          match hsp : splitFirst ['>'] t with
          | none => exact absurd hmem' (splitFirst_single_none hsp)
          | some (a, b) =>
            obtain ⟨hteq, hna⟩ := splitFirst_single hsp
            refine ⟨[], d :: a, b, by simp [hteq], by simp, ?_⟩
            simp only [List.mem_cons, not_or]
            exact ⟨fun hgd => hdne hgd.symm, hna⟩
      · obtain ⟨pre, mid, post, hs, hmid, hnm⟩ := ih h2
        exact ⟨c :: pre, mid, post, by simp [hs], hmid, hnm⟩
  · rintro ⟨pre, mid, post, hs, hmid, hnm⟩
    subst hs
    induction pre with
    | nil =>
      rw [List.nil_append, hasTag_cons]
      cases mid with
      | nil => exact absurd rfl hmid
      | cons d t =>
        rw [List.cons_append, gtFar]
        have hd : ¬ d = '>' := by
          intro hdeq
          exact hnm (by simp [hdeq])
        have hm : (t ++ '>' :: post).contains '>' = true :=
          contains_iff_mem.mpr (List.mem_append.mpr (Or.inr (by simp)))
        simp [hd, hm]
    | cons c pre ih =>
      rw [List.cons_append, hasTag_cons, ih]
      simp

theorem removeTags_cons_ne {c : Char} (hc : ¬ c = '<') (rest : List Char) :
    removeTags (c :: rest) = c :: removeTags rest := by
  rw [removeTags.eq_def]
  simp [hc]

theorem removeTags_cons_lt_adjacent {rest post : List Char}
    (h : splitFirst ['>'] rest = some ([], post)) :
    removeTags ('<' :: rest) = '<' :: removeTags rest := by
  rw [removeTags.eq_def]
  dsimp only
  split
  next =>
    split
    next pre2 post2 heq =>
      rw [h] at heq
      simp only [Option.some.injEq, Prod.mk.injEq] at heq
      rw [if_pos heq.1.symm]
    next heq => rfl
  next hne => exact absurd rfl hne

theorem removeTags_cons_lt_far {rest pre post : List Char}
    (h : splitFirst ['>'] rest = some (pre, post)) (hpre : ¬ pre = []) :
    removeTags ('<' :: rest) = removeTags post := by
  rw [removeTags.eq_def]
  dsimp only
  split
  next =>
    split
    next pre2 post2 heq =>
      rw [h] at heq
      simp only [Option.some.injEq, Prod.mk.injEq] at heq
      rw [if_neg (heq.1 ▸ hpre), heq.2]
    next heq =>
      rw [h] at heq
      exact absurd heq (by simp)
  next hne => exact absurd rfl hne

theorem removeTags_cons_lt_none {rest : List Char}
    (h : splitFirst ['>'] rest = none) :
    removeTags ('<' :: rest) = '<' :: removeTags rest := by
  rw [removeTags.eq_def]
  dsimp only
  split
  next =>
    split
    next pre2 post2 heq =>
      rw [h] at heq
      exact absurd heq.symm (by simp)
    next heq => rfl
  next hne => exact absurd rfl hne

theorem mem_removeTags {x : Char} {s : List Char} (h : x ∈ removeTags s) :
    x ∈ s := by
  induction s using removeTags.induct with
  | case1 => rw [removeTags.eq_def] at h; exact h
  | case2 rest post hsp ih =>
    rw [removeTags_cons_lt_adjacent hsp] at h
    rcases List.mem_cons.mp h with h1 | h2
    · simp [h1]
    · simp [ih h2]
  | case3 rest pre post hsp hpre ih =>
    rw [removeTags_cons_lt_far hsp hpre] at h
    obtain ⟨heq, -⟩ := splitFirst_single hsp
    rw [heq]
    have := ih h
    simp [this]
  | case4 rest hsp ih =>
    rw [removeTags_cons_lt_none hsp] at h
    rcases List.mem_cons.mp h with h1 | h2
    · simp [h1]
    · simp [ih h2]
  | case5 c rest hc ih =>
    rw [removeTags_cons_ne hc] at h
    rcases List.mem_cons.mp h with h1 | h2
    · simp [h1]
    · simp [ih h2]

/-- Pass 7 leaves no HTML-tag substring behind: removing a leftmost match
cannot create a new one, because the scanner consumes every open angle
bracket whose first close angle bracket sits at distance two or more. -/
theorem hasTag_removeTags (s : List Char) : hasTag (removeTags s) = false := by
  induction s using removeTags.induct with
  | case1 => simp [removeTags.eq_def, hasTag]
  | case2 rest post hsp ih =>
    rw [removeTags_cons_lt_adjacent hsp, hasTag_cons]
    obtain ⟨heq, -⟩ := splitFirst_single hsp
    simp only [List.nil_append] at heq
    subst heq
    rw [removeTags_cons_ne (by decide) post] at ih ⊢
    rw [gtFar_gt_head]
    rw [hasTag_cons_ne (by decide)] at ih ⊢
    simp [ih]
  | case3 rest pre post hsp hpre ih =>
    rw [removeTags_cons_lt_far hsp hpre]
    exact ih
  | case4 rest hsp ih =>
    rw [removeTags_cons_lt_none hsp, hasTag_cons]
    have hng : '>' ∉ removeTags rest :=
      fun hm => splitFirst_single_none hsp (mem_removeTags hm)
    rw [gtFar_no_gt hng]
    simp [ih]
  | case5 c rest hc ih =>
    rw [removeTags_cons_ne hc, hasTag_cons_ne hc]
    exact ih

theorem mem_emitNl {x : Char} {n : Nat} (h : x ∈ emitNl n) : x = '\n' := by
  rw [emitNl] at h
  split at h
  · rcases List.mem_cons.mp h with h1 | h2
    · exact h1
    · rcases List.mem_cons.mp h2 with h3 | h4
      · exact h3
      · exact absurd h4 (List.not_mem_nil _)
  · exact List.eq_of_mem_replicate h

theorem mem_collapseNlAux {x : Char} {s : List Char} {n : Nat}
    (h : x ∈ collapseNlAux n s) : x = '\n' ∨ x ∈ s := by
  induction s generalizing n with
  | nil =>
    rw [collapseNlAux] at h
    exact Or.inl (mem_emitNl h)
  | cons c rest ih =>
    rw [collapseNlAux] at h
    split at h
    · rcases ih h with h1 | h2
      · simp [h1]
      · simp [h2]
    · rcases List.mem_append.mp h with h1 | h2
      · exact Or.inl (mem_emitNl h1)
      · rcases List.mem_cons.mp h2 with h3 | h4
        · simp [h3]
        · rcases ih h4 with h5 | h6
          · simp [h5]
          · simp [h6]

theorem hasTag_emitNl_append (n : Nat) (X : List Char) :
    hasTag (emitNl n ++ X) = hasTag X :=
  hasTag_append_no_lt (fun c hc => by rw [mem_emitNl hc]; decide)

/-- Pass 8 (newline collapsing) cannot create an HTML-tag substring. -/
theorem hasTag_collapseNlAux {s : List Char} (n : Nat)
    (h : hasTag s = false) : hasTag (collapseNlAux n s) = false := by
  induction s generalizing n with
  | nil =>
    rw [collapseNlAux]
    exact hasTag_no_lt (fun c hc => by rw [mem_emitNl hc]; decide)
  | cons c rest ih =>
    rw [hasTag_cons] at h
    have h2 : hasTag rest = false := by
      revert h; cases hasTag rest <;> simp
    have h1 : ¬ ((c == '<') && gtFar rest) = true := by
      revert h; cases hval : ((c == '<') && gtFar rest) <;> simp
    rw [collapseNlAux]
    split
    · exact ih (n + 1) h2
    · rw [hasTag_emitNl_append, hasTag_cons]
      by_cases hc : c = '<'
      · subst hc
        have hgf : gtFar rest = false := by
          revert h1; cases hval : gtFar rest <;> simp
        have hout : gtFar (collapseNlAux 0 rest) = false := by
          cases rest with
          | nil =>
            rw [collapseNlAux]
            rfl
          | cons d t =>
            rw [gtFar] at hgf
            by_cases hd : d = '>'
            · subst hd
              rw [collapseNlAux, if_neg (by decide)]
              rw [show emitNl 0 = [] from rfl, List.nil_append]
              exact gtFar_gt_head _
            · have ht : ¬ t.contains '>' = true := by
                revert hgf
                cases hval : t.contains '>' <;> simp [hd]
              have hnm : '>' ∉ (d :: t) := by
                simp only [List.mem_cons, not_or]
                exact ⟨fun hx => hd hx.symm, fun hm => ht (contains_iff_mem.mpr hm)⟩
              apply gtFar_no_gt
              intro hm
              rcases mem_collapseNlAux hm with h5 | h6
              · cases h5
              · exact hnm h6
        rw [hout]
        simp [ih 0 h2]
      · simp [hc, ih 0 h2]

theorem hasTag_dropWhile {p : Char → Bool} {s : List Char}
    (h : hasTag s = false) : hasTag (s.dropWhile p) = false := by
  induction s with
  | nil => simpa using h
  | cons c rest ih =>
    rw [List.dropWhile_cons]
    split
    · apply ih
      rw [hasTag_cons] at h
      revert h; cases hasTag rest <;> simp
    · exact h

/-- Pass 9 (trimming) cannot create an HTML-tag substring. -/
theorem hasTag_trimJs {s : List Char} (h : hasTag s = false) :
    hasTag (trimJs s) = false := by
  rw [trimJs]
  have hx0 : hasTag (s.dropWhile isJsSpace) = false := hasTag_dropWhile h
  have hsplit : s.dropWhile isJsSpace =
      ((s.dropWhile isJsSpace).reverse.dropWhile isJsSpace).reverse ++
        ((s.dropWhile isJsSpace).reverse.takeWhile isJsSpace).reverse := by
    calc s.dropWhile isJsSpace
        = (s.dropWhile isJsSpace).reverse.reverse := by rw [List.reverse_reverse]
      _ = (((s.dropWhile isJsSpace).reverse.takeWhile isJsSpace) ++
            ((s.dropWhile isJsSpace).reverse.dropWhile isJsSpace)).reverse := by
            rw [List.takeWhile_append_dropWhile]
      _ = _ := by rw [List.reverse_append]
  rw [hsplit] at hx0
  exact hasTag_of_append hx0

theorem jsLower_lt_iff {c : Char} : jsLower c = '<' ↔ c = '<' :=
  jsLower_eq_iff (by decide) (by decide)

theorem jsLower_gt_iff {c : Char} : jsLower c = '>' ↔ c = '>' :=
  jsLower_eq_iff (by decide) (by decide)

theorem gtFar_lowerStr (s : List Char) : gtFar (lowerStr s) = gtFar s := by
  cases s with
  | nil => rfl
  | cons c rest =>
    rw [lowerStr, List.map_cons, gtFar, gtFar]
    have h1 : (jsLower c == '>') = (c == '>') := by
      by_cases hc : c = '>'
      · subst hc
        rw [jsLower_eq_self (by decide)]
      · have : ¬ jsLower c = '>' := fun hx => hc (jsLower_gt_iff.mp hx)
        simp [hc, this]
    have h2 : (List.map jsLower rest).contains '>' = rest.contains '>' := by
      by_cases hm : '>' ∈ rest
      · rw [contains_iff_mem.mpr hm]
        rw [contains_iff_mem.mpr (List.mem_map.mpr ⟨'>', hm, jsLower_eq_self (by decide)⟩)]
      · have hm2 : '>' ∉ List.map jsLower rest := by
          intro hx
          obtain ⟨d, hd, hde⟩ := List.mem_map.mp hx
          exact hm (jsLower_gt_iff.mp hde ▸ hd)
        have hb1 : (List.map jsLower rest).contains '>' = false := by
          cases hval : (List.map jsLower rest).contains '>'
          · rfl
          · exact absurd (contains_iff_mem.mp hval) hm2
        have hb2 : rest.contains '>' = false := by
          cases hval : rest.contains '>'
          · rfl
          · exact absurd (contains_iff_mem.mp hval) hm
        rw [hb1, hb2]
    rw [h1, h2]

/-- Pass 10 (lowercasing) cannot create an HTML-tag substring. -/
theorem hasTag_lowerStr (s : List Char) : hasTag (lowerStr s) = hasTag s := by
  induction s with
  | nil => rfl
  | cons c rest ih =>
    rw [lowerStr, List.map_cons, hasTag_cons, hasTag_cons]
    rw [show List.map jsLower rest = lowerStr rest from rfl, gtFar_lowerStr, ih]
    have h1 : (jsLower c == '<') = (c == '<') := by
      by_cases hc : c = '<'
      · subst hc
        rw [jsLower_eq_self (by decide)]
      · have : ¬ jsLower c = '<' := fun hx => hc (jsLower_lt_iff.mp hx)
        simp [hc, this]
    rw [h1]

theorem lowerStr_append (a b : List Char) :
    lowerStr (a ++ b) = lowerStr a ++ lowerStr b := by
  simp [lowerStr]

theorem joinSpace_lower :
    ∀ ls : List (List Char), (∀ x ∈ ls, lowerStr x = x) →
      lowerStr (joinSpace ls) = joinSpace ls := by
  intro ls
  induction ls with
  | nil => intro _; rfl
  | cons x t ih =>
    intro h
    cases t with
    | nil => exact h x (by simp)
    | cons y u =>
      rw [joinSpace, lowerStr_append, h x (by simp)]
      congr 1
      rw [lowerStr, List.map_cons,
        show jsLower ' ' = ' ' from jsLower_eq_self (by decide)]
      congr 1
      exact ih (fun z hz => h z (by simp [hz]))

theorem keywordsOf_lower (body : List Char) :
    lowerStr (keywordsOf body) = keywordsOf body := by
  rw [keywordsOf]
  apply joinSpace_lower
  intro x hx
  rw [List.mem_filterMap] at hx
  obtain ⟨seg, hseg, hmap⟩ := hx
  match hm : headingMatchRange 1 3 seg with
  | some p =>
    rw [hm] at hmap
    simp only [Option.some.injEq] at hmap
    rw [← hmap, keywordOfSegment]
    exact lowerStr_idem _
  | none => rw [hm] at hmap; simp at hmap

/-- C7 (amended): every built Document Record's content and keywords equal
their own lowercasings, and the content contains no residual HTML-tag
substring.  The claim's further conjunct — that no text from fenced code
blocks or inline code spans of the source document remains — fails when
backtick delimiters do not pair the way markdown reads them (an unclosed
fence, a double-backtick span); see the counterexample. -/
theorem c7_lowercase_no_tags (pathPfx : List Char) (page : PageFile)
    (file : List Char) :
    lowerStr (buildRecord pathPfx page file).content =
      (buildRecord pathPfx page file).content ∧
    lowerStr (buildRecord pathPfx page file).keywords =
      (buildRecord pathPfx page file).keywords ∧
    hasTag (buildRecord pathPfx page file).content = false := by
  refine ⟨?_, ?_, ?_⟩
  · show lowerStr (cleanContent (parseMatter file).body) =
      cleanContent (parseMatter file).body
    exact cleanContent_lower _
  · show lowerStr (keywordsOf (parseMatter file).body) =
      keywordsOf (parseMatter file).body
    exact keywordsOf_lower _
  · show hasTag (cleanContent (parseMatter file).body) = false
    rw [cleanContent, hasTag_lowerStr, collapseNewlines]
    exact hasTag_trimJs (hasTag_collapseNlAux 0 (hasTag_removeTags _))

/-- The fenced code blocks of a document in the claim's (markdown) reading:
the text between an opening fence and its closing fence, an unclosed final
fence opening a block that runs to the end of the document. -/
def fencedTexts (s : List Char) : List (List Char) :=
  match h1 : splitFirst fence s with
  | none => []
  | some (_, rest1) =>
    match h2 : splitFirst fence rest1 with
    | none => [rest1]
    | some (body, rest2) => body :: fencedTexts rest2
termination_by s.length
decreasing_by
  have l1 := splitFirst_len h1
  have l2 := splitFirst_len h2
  simp [fence] at l1 l2
  omega

/-- The source body of the C7 counterexample: an inline code span written
with double backticks and an unclosed code fence whose block holds
"secret". -/
def c7Doc : List Char := "``a`b``z\n```\nsecret".data

/-- C7 counterexample: the counterexample body's one fenced code block holds
"secret" (unclosed fence, so the block runs to the end), yet the cleaned
content retains "secret" — and also the "b" from inside the double-backtick
inline span — because the removal regexes pair backticks one by one, left to
right, and keep text after unpaired delimiters. -/
theorem c7_counterexample :
    fencedTexts c7Doc = [("\nsecret".data)] ∧
    cleanContent c7Doc = ("`b```\nsecret".data) ∧
    ("secret".data) <:+: cleanContent c7Doc := by
  have heq : cleanContent c7Doc = ("`b```\nsecret".data) := by
    simp only [c7Doc]
    simp [cleanContent, removeFenced.eq_def, removeInline.eq_def,
      removeLinks.eq_def, removeToc.eq_def, removeComments.eq_def,
      removeTags.eq_def, linkTarget?, collapseNewlines, collapseNlAux, emitNl,
      trimJs, lowerStr, splitFirst, fence, backtick, commentOpen, commentClose,
      tocAt, removeFormatting, jsLower, isJsSpace, jsSpaceChars, isLineTerm,
      List.isPrefixOf, isUpper_iff, Char.isUpper]
  refine ⟨?_, heq, ?_⟩
  · simp only [c7Doc]
    simp [fencedTexts.eq_def, splitFirst, fence, backtick, List.isPrefixOf]
  · rw [heq]
    exact ⟨("`b```\n".data), [], by decide⟩

end ScotDocs
